import Mathlib

/-!
Verification of the baseline JPEG decode pipeline of this repository.

Each Rust routine relevant to the claims is shallowly embedded as an
executable Lean definition:

* machine bytes are `Nat` values (with `% 256` where u8 arithmetic wraps),
* fallible Rust code returning `anyhow::Result` becomes `Except String`,
* SIMD chunked scans become explicit chunk recursions, including the
  `rotate_elements_left::<1>` semantics (lane 63 wraps to lane 0 of the
  same chunk, not to the next input byte),
* the raw-pointer Huffman node graph becomes an inductive binary tree
  whose `nil` constructor plays the role of the null `NPtr`.
-/

namespace Jpeg

/-! ## Zig-zag pass (`src/src/entropy_decoder.rs`, `ZIGZAG_TABLE` and `zigzag`) -/

/-- The fixed permutation table `EntropyDecoder::ZIGZAG_TABLE`. -/
def ZIGZAG_TABLE : List Nat :=
  [0, 1, 5, 6, 14, 15, 27, 28, 2, 4, 7, 13, 16, 26, 29, 42, 3, 8, 12, 17, 25, 30, 41, 43, 9,
   11, 18, 24, 31, 40, 44, 53, 10, 19, 23, 32, 39, 45, 52, 54, 20, 22, 33, 38, 46, 51, 55, 60,
   21, 34, 37, 47, 50, 56, 59, 61, 35, 36, 48, 49, 57, 58, 62, 63]

theorem zigzagTable_lt : ∀ i : Fin 64, ZIGZAG_TABLE.getD i.val 0 < 64 := by decide

/-- `ZIGZAG_TABLE` read as a function on indices. -/
def zigzagTable (i : Fin 64) : Fin 64 := ⟨ZIGZAG_TABLE.getD i.val 0, zigzagTable_lt i⟩

/-- One 64-entry block of `EntropyDecoder::zigzag`: the loop writes
`new_chunk[ZIGZAG_TABLE[idx]] = chunk[idx]` for `idx` in `0..64`, starting
from a zero-initialised output block. -/
def zigzagPass (b : Fin 64 → ℤ) : Fin 64 → ℤ :=
  (List.finRange 64).foldl (fun acc i => Function.update acc (zigzagTable i) (b i)) (fun _ => 0)

/-- Index inverse of `zigzagTable`, obtained by search. -/
def zigzagInv (j : Fin 64) : Fin 64 :=
  ((List.finRange 64).find? (fun i => zigzagTable i = j)).getD ⟨0, by decide⟩

theorem zigzagTable_zigzagInv : ∀ j : Fin 64, zigzagTable (zigzagInv j) = j := by decide

theorem zigzagTable_inj : ∀ x y : Fin 64, zigzagTable x = zigzagTable y → x = y := by decide

theorem foldl_update_getD {α : Type} (g : Fin 64 → Fin 64) (b : Fin 64 → α)
    (init : Fin 64 → α) (l : List (Fin 64)) (j i : Fin 64) (hgi : g i = j) (hmem : i ∈ l)
    (huniq : ∀ x ∈ l, g x = j → x = i) :
    (l.foldl (fun acc x => Function.update acc (g x) (b x)) init) j = b i := by
  induction l using List.reverseRecOn generalizing init with
  | nil => cases hmem
  | append_singleton l x ih =>
    rw [List.foldl_append, List.foldl_cons, List.foldl_nil]
    by_cases hx : x = i
    · subst hx
      rw [hgi, Function.update_same]
    · have hgx : j ≠ g x := by
        intro heq
        exact hx (huniq x (by simp) heq.symm)
      rw [Function.update_noteq hgx]
      have hmem2 : i ∈ l := by
        rcases List.mem_append.mp hmem with h | h
        · exact h
        · simp at h; exact absurd h.symm hx
      exact ih init hmem2 (fun y hy hgy => huniq y (List.mem_append.mpr (Or.inl hy)) hgy)

theorem zigzagPass_apply (b : Fin 64 → ℤ) (j : Fin 64) : zigzagPass b j = b (zigzagInv j) :=
  foldl_update_getD zigzagTable b _ _ j (zigzagInv j) (zigzagTable_zigzagInv j)
    (List.mem_finRange _)
    (fun x _ hx => zigzagTable_inj x (zigzagInv j) (hx.trans (zigzagTable_zigzagInv j).symm))

/-- C7: applying the forward zig-zag permutation (serialisation through
`ZIGZAG_TABLE`) and then the inverse permutation realised by the zigzag
pass is the identity on 64-element blocks, and `ZIGZAG_TABLE` is a
bijection on indices 0..63. -/
theorem c7_zigzag_roundtrip :
    (∀ b : Fin 64 → ℤ, zigzagPass (fun i => b (zigzagTable i)) = b) ∧
      Function.Bijective zigzagTable := by
  refine ⟨fun b => ?_, fun x y h => zigzagTable_inj x y h, fun j => ⟨zigzagInv j, zigzagTable_zigzagInv j⟩⟩
  funext j
  rw [zigzagPass_apply]
  exact congrArg b (zigzagTable_zigzagInv j)

/-! ## Inverse DCT (`src/src/idct.rs` and the level shift in `src/src/decoder.rs`)

`IDCT::perform_idct` loops `for u in 0..self.precision as usize` with the
inline normalisation coefficients and the precomputed cosine table
`self.table`.  The cosine table entries and `sqrt(1/2)` are irrational
floats, so the embedding abstracts them as parameters: the claim proved
below holds for every table and every value of the square root, which in
particular covers the IEEE single-precision evaluation (on the all-zero
block every float operation is exact).  The loop bound `precision as usize`
is likewise kept as a parameter. -/

/-- `IDCT::norm_coeff`. -/
def norm_coeff (sqrtHalf : ℚ) (u : ℕ) : ℚ := if u = 0 then sqrtHalf else 1

/-- `IDCT::perform_idct`, output position `p = x * 8 + y`. -/
def perform_idct (sqrtHalf : ℚ) (table : ℕ → ℚ) (precisionN : ℕ) (mcu : ℕ → ℚ) : ℕ → ℚ :=
  fun p =>
    (1 / 4) * ∑ u ∈ Finset.range precisionN, ∑ v ∈ Finset.range precisionN,
      norm_coeff sqrtHalf u * norm_coeff sqrtHalf v * mcu (u * 8 + v) *
        table (u * 8 + p / 8) * table (v * 8 + p % 8)

/-- The `idct + level_shift` step of `Decoder::decode`: add 128 to every sample. -/
def levelShift (b : ℕ → ℚ) : ℕ → ℚ := fun p => b p + 128

/-- C8: on the all-zero coefficient block the inverse DCT followed by the
+128 level shift yields exactly 128 at every one of the 64 sample
positions, for every cosine table, every normalisation constant and every
loop bound. -/
theorem c8_idct_zero_block :
    ∀ (sqrtHalf : ℚ) (table : ℕ → ℚ) (precisionN : ℕ) (p : ℕ),
      levelShift (perform_idct sqrtHalf table precisionN (fun _ => 0)) p = 128 := by
  intro s t n p
  simp [levelShift, perform_idct]

/-! ## Colour conversion (`src/src/color_spaces.rs`)

`ColorSpace::convert_ycbcr_to_rgb` iterates over the blocks with
`for_each`, but its closure **assigns** the freshly converted block to the
accumulator `rgbs` (`rgbs = rs...collect()`) instead of extending it, so
the function returns only the final block's 64 triples.  The `foldl`
below reproduces that overwrite.  Float literals are embedded as the
rationals they denote; the properties proved about the function (its
length and which block survives) do not depend on rounding. -/

/-- The per-block body of the `for_each` closure: 64 RGB triples computed
from one block's Y, Cb, Cr samples. -/
def convBlock (blk : (ℕ → ℚ) × (ℕ → ℚ) × (ℕ → ℚ)) : List (ℚ × ℚ × ℚ) :=
  (List.range 64).map (fun k =>
    let y := blk.1 k
    let cb := blk.2.1 k - 128
    let cr := blk.2.2 k - 128
    (y + 1.402 * cr, y - 0.344136 * cb - 0.714136 * cr, y + 1.772 * cb))

/-- `ColorSpace::convert_ycbcr_to_rgb`: the loop body replaces the
accumulator instead of appending to it. -/
def convert_ycbcr_to_rgb (image_data : List ((ℕ → ℚ) × (ℕ → ℚ) × (ℕ → ℚ))) :
    List (ℚ × ℚ × ℚ) :=
  image_data.foldl (fun _rgbs blk => convBlock blk) []

/-- A first concrete test block (all Y = 10, neutral chroma). -/
def blockA : (ℕ → ℚ) × (ℕ → ℚ) × (ℕ → ℚ) := (fun _ => 10, fun _ => 128, fun _ => 128)

/-- A second concrete test block (all Y = 77, neutral chroma). -/
def blockB : (ℕ → ℚ) × (ℕ → ℚ) × (ℕ → ℚ) := (fun _ => 77, fun _ => 128, fun _ => 128)

/-- C9: on the two-block input `[blockA, blockB]` the colour converter
returns only `blockB`'s 64 triples — 64 outputs instead of one RGB triple
per input sample (128).  This evaluates the code at the failing input of
the code-bug report. -/
theorem c9_last_block_only :
    convert_ycbcr_to_rgb [blockA, blockB] = convBlock blockB ∧
      (convert_ycbcr_to_rgb [blockA, blockB]).length = 64 ∧
      (convert_ycbcr_to_rgb [blockA, blockB]).length ≠ 2 * 64 := by
  refine ⟨rfl, ?_, ?_⟩ <;> simp [convert_ycbcr_to_rgb, convBlock]

/-! ## Decode-time validation (`src/src/decoder.rs`, `Decoder::decode`)

After parsing, `decode` checks that the frame header's component type
equals the scan header's and that the AC/DC Huffman tree counts match the
process schema (`CodingProcess::BaselineDCT` expects `(2, 2)`), and only
then proceeds to entropy decoding.  The continuation `rest` stands for
everything `decode` does after the two checks. -/

inductive ComponentType where
  | Grayscale
  | Color
deriving DecidableEq

inductive HuffmanClass where
  | DC
  | AC
deriving DecidableEq, Repr

/-- The fold in `Decoder::decode` counting AC and DC trees. -/
def countEntropyTables (trees : List HuffmanClass) : ℕ × ℕ :=
  trees.foldl
    (fun (p : ℕ × ℕ) c =>
      match c with
      | .AC => (p.1 + 1, p.2)
      | .DC => (p.1, p.2 + 1))
    (0, 0)

/-- `CodingProcess::BaselineDCT`'s `schema().entropy_table_count`. -/
def baselineTableCount : ℕ × ℕ := (2, 2)

/-- The validation prefix of `Decoder::decode` for the baseline process:
component-type check, then table-count check, then the continuation. -/
def baselineValidate (fhType scType : ComponentType) (treeClasses : List HuffmanClass)
    (rest : Except String (List ℕ)) : Except String (List ℕ) :=
  if fhType ≠ scType then .error ("header component types do not align.")
  else
    let counts := countEntropyTables treeClasses
    if counts.1 ≠ baselineTableCount.1 ∨ counts.2 ≠ baselineTableCount.2 then
      .error ("number of ac and dc entropy tables mismatch from expected.")
    else rest

/-- C5: whenever the frame and scan component types disagree, or the
parsed AC tree count differs from 2, or the DC tree count differs from 2,
`decode` returns an error whose value does not depend on the continuation
— i.e. it fails before any entropy decoding is performed. -/
theorem c5_validation_fails_first (fhType scType : ComponentType)
    (treeClasses : List HuffmanClass)
    (h : fhType ≠ scType ∨ (countEntropyTables treeClasses).1 ≠ 2 ∨
      (countEntropyTables treeClasses).2 ≠ 2) :
    ∃ e, ∀ rest, baselineValidate fhType scType treeClasses rest = .error e := by
  by_cases h1 : fhType = scType
  · refine ⟨"number of ac and dc entropy tables mismatch from expected.", fun rest => ?_⟩
    have h2 : (countEntropyTables treeClasses).1 ≠ 2 ∨ (countEntropyTables treeClasses).2 ≠ 2 := by
      rcases h with h | h
      · exact absurd h1 h
      · exact h
    simp [baselineValidate, h1, baselineTableCount]
    intro hac hdc
    rcases h2 with h2 | h2
    · exact absurd hac h2
    · exact absurd hdc h2
  · exact ⟨"header component types do not align.", fun rest => by simp [baselineValidate, h1]⟩

/-- Witness for C5 at a concrete mismatching input. -/
theorem c5_validation_fails_first_witness :
    ComponentType.Grayscale ≠ ComponentType.Color ∧
      ∃ e, ∀ rest,
        baselineValidate ComponentType.Grayscale ComponentType.Color [] rest = .error e :=
  ⟨by decide, c5_validation_fails_first _ _ _ (Or.inl (by decide))⟩

/-! ## Huffman tree builder (`HuffmanTree::from`, identical merge loop in
`src/decode/src/huffman_tree.rs` and `src/src/huffman_tree.rs`)

`HuffmanNode` (code, freq, left, right raw pointers) becomes the inductive
`HTree`, with `HTree.nil` standing for the null `NPtr`.  The
`BinaryHeap<HeapItem>` with reversed `Ord` pops a minimum-frequency item;
the embedding keeps the heap as a frequency-sorted list (ties resolved in
insertion order — Rust's binary heap leaves the order among equal
frequencies unspecified, and the inputs of the theorems below have
distinct frequencies, where the two agree).

The merge loop is reproduced **with** its mid-loop break: after popping
`left`, if exactly one node remains the loop breaks, dropping the popped
node, and the final `pop` returns the remaining node as root. -/

inductive HTree where
  | nil
  | node (code freq : ℕ) (left right : HTree)
deriving DecidableEq, Repr

/-- `min_heap.push`, on a frequency-sorted list. -/
def heapPush (x : ℕ × HTree) : List (ℕ × HTree) → List (ℕ × HTree)
  | [] => [x]
  | y :: ys => if x.1 < y.1 then x :: y :: ys else y :: heapPush x ys

theorem heapPush_length (x : ℕ × HTree) : ∀ l, (heapPush x l).length = l.length + 1 := by
  intro l
  induction l with
  | nil => rfl
  | cons y ys ih =>
    simp only [heapPush]
    split <;> simp [ih]

/-- The `while min_heap.len() > 1` merge loop of `HuffmanTree::from`,
returning the final heap.  The `_ :: r :: []` case is the source's
`if min_heap.len() == 1 break` after popping the first node: the popped
node is dropped.  The fuel argument only makes the recursion structural;
each loop iteration shrinks the heap by one, so `mergeLoop` supplies
`heap.length` fuel, which never runs out. -/
def mergeLoopF : ℕ → List (ℕ × HTree) → List (ℕ × HTree)
  | _, [] => []
  | _, [x] => [x]
  | _, _ :: r :: [] => [r]
  | 0, heap => heap
  | fuel + 1, l :: r :: s :: rest =>
    mergeLoopF fuel (heapPush (l.1 + r.1, HTree.node 255 (l.1 + r.1) l.2 r.2) (s :: rest))

def mergeLoop (heap : List (ℕ × HTree)) : List (ℕ × HTree) :=
  mergeLoopF heap.length heap

/-- The initial heap of `HuffmanTree::from`: one leaf per `(code, freq)` pair. -/
def buildHeap (code_freqs : List (ℕ × ℕ)) : List (ℕ × HTree) :=
  code_freqs.foldl (fun h (cf : ℕ × ℕ) => heapPush (cf.2, HTree.node cf.1 cf.2 .nil .nil) h) []

/-- `HuffmanTree::from` on the `(code, freq)` pairs: push all leaves, run
the merge loop, pop the root.  `none` models the `unwrap` panic on an
empty input. -/
def huffmanTreeFrom (code_freqs : List (ℕ × ℕ)) : Option HTree :=
  match mergeLoop (buildHeap code_freqs) with
  | [] => none
  | x :: _ => some x.2

def countLeaves : HTree → ℕ
  | .nil => 0
  | .node _ _ .nil .nil => 1
  | .node _ _ l r => countLeaves l + countLeaves r

def countInternal : HTree → ℕ
  | .nil => 0
  | .node _ _ .nil .nil => 0
  | .node _ _ l r => countInternal l + countInternal r + 1

/-- Does symbol `s` occur at a leaf of the tree? -/
def hasSymbol (s : ℕ) : HTree → Bool
  | .nil => false
  | .node c _ l r =>
    (decide (c = s) && decide (l = HTree.nil) && decide (r = HTree.nil)) ||
      hasSymbol s l || hasSymbol s r

/-- C3 (code evaluation at the failing input): on the two-symbol input
`[(1, 5), (2, 9)]` the merge loop pops the weight-5 leaf, immediately
breaks because one node remains, and discards it; the returned tree is the
single leaf for symbol 2 — 1 leaf and 0 internal nodes instead of the 2
leaves and 1 internal node the claim requires, and symbol 1 is absent. -/
theorem c3_builder_drops_popped_node :
    huffmanTreeFrom [(1, 5), (2, 9)] = some (HTree.node 2 9 .nil .nil) ∧
      (∀ t, huffmanTreeFrom [(1, 5), (2, 9)] = some t →
        countLeaves t = 1 ∧ countInternal t = 0 ∧ hasSymbol 1 t = false) := by
  have h0 : huffmanTreeFrom [(1, 5), (2, 9)] = some (HTree.node 2 9 .nil .nil) := rfl
  refine ⟨h0, fun t ht => ?_⟩
  rw [h0] at ht
  have ht2 : HTree.node 2 9 .nil .nil = t := Option.some.inj ht
  subst ht2
  exact ⟨rfl, rfl, rfl⟩

/-- Internal-node tagging invariant: every node that has a child carries
the sentinel code 255 (leaves — both children `nil` — are unconstrained). -/
def sentinelTagged : HTree → Bool
  | .nil => true
  | .node c _ l r =>
    ((decide (l = HTree.nil) && decide (r = HTree.nil)) || decide (c = 255)) &&
      sentinelTagged l && sentinelTagged r

theorem sentinelTagged_node255 {l r : HTree} (f : ℕ) (hl : sentinelTagged l = true)
    (hr : sentinelTagged r = true) : sentinelTagged (HTree.node 255 f l r) = true := by
  simp [sentinelTagged, hl, hr]

theorem heapPush_forall {P : ℕ × HTree → Prop} (x : ℕ × HTree) (l : List (ℕ × HTree))
    (hx : P x) (hl : ∀ y ∈ l, P y) : ∀ y ∈ heapPush x l, P y := by
  induction l with
  | nil => simpa [heapPush] using hx
  | cons z zs ih =>
    simp only [heapPush]
    split
    · intro y hy
      rcases List.mem_cons.mp hy with h | h
      · exact h ▸ hx
      · exact hl y h
    · intro y hy
      rcases List.mem_cons.mp hy with h | h
      · exact hl y (h ▸ List.mem_cons_self z zs)
      · exact ih (fun y hy => hl y (List.mem_cons_of_mem z hy)) y h

theorem mergeLoopF_tagged : ∀ (fuel : ℕ) (heap : List (ℕ × HTree)),
    (∀ y ∈ heap, sentinelTagged y.2 = true) →
      ∀ y ∈ mergeLoopF fuel heap, sentinelTagged y.2 = true := by
  intro fuel
  induction fuel with
  | zero =>
    intro heap h y hy
    rcases heap with _ | ⟨a, _ | ⟨b, _ | ⟨c, rest⟩⟩⟩
    · cases hy
    · exact h y (by simpa [mergeLoopF] using hy)
    · simp only [mergeLoopF] at hy
      exact h y (by simp [List.mem_singleton.mp hy])
    · exact h y (by simpa [mergeLoopF] using hy)
  | succ n ih =>
    intro heap h y hy
    rcases heap with _ | ⟨a, _ | ⟨b, _ | ⟨c, rest⟩⟩⟩
    · cases hy
    · exact h y (by simpa [mergeLoopF] using hy)
    · simp only [mergeLoopF] at hy
      exact h y (by simp [List.mem_singleton.mp hy])
    · simp only [mergeLoopF] at hy
      refine ih _ ?_ y hy
      refine heapPush_forall _ _ ?_ ?_
      · exact sentinelTagged_node255 _ (h a (by simp)) (h b (by simp))
      · intro z hz
        refine h z ?_
        rcases List.mem_cons.mp hz with h1 | h1
        · simp [h1]
        · simp [h1]

theorem buildHeap_tagged (cfs : List (ℕ × ℕ)) :
    ∀ y ∈ buildHeap cfs, sentinelTagged y.2 = true := by
  unfold buildHeap
  generalize hacc : ([] : List (ℕ × HTree)) = acc
  have hacc2 : ∀ y ∈ acc, sentinelTagged y.2 = true := by
    rw [← hacc]; intro y hy; cases hy
  clear hacc
  induction cfs generalizing acc with
  | nil => simpa using hacc2
  | cons cf cfs ih =>
    simp only [List.foldl_cons]
    exact ih _ (heapPush_forall _ _ (by simp [sentinelTagged]) hacc2)

theorem huffmanTreeFrom_tagged (cfs : List (ℕ × ℕ)) (t : HTree)
    (ht : huffmanTreeFrom cfs = some t) : sentinelTagged t = true := by
  have hml := mergeLoopF_tagged (buildHeap cfs).length (buildHeap cfs) (buildHeap_tagged cfs)
  unfold huffmanTreeFrom mergeLoop at ht
  revert ht
  cases hm : mergeLoopF (buildHeap cfs).length (buildHeap cfs) with
  | nil => intro ht; cases ht
  | cons x xs =>
    intro ht
    have hx : x.2 = t := Option.some.inj ht
    exact hx ▸ hml x (hm ▸ List.mem_cons_self x xs)

/-! ## Entropy decoder (`src/src/entropy_decoder.rs`, `decode_huffman`)

The `huffman_map` from `EntropyCoding::huffman_map` maps
`(HuffmanClass, destination_id)` to the tree's root `NPtr`; it is embedded
as an association list of `HTree`s.  The scan-component selectors are the
`(dc_destination_id, ac_destination_id)` pairs.

The Rust loop runs exactly once per element of `data`: the final
`self.cursor += 1` is unconditional, so an iteration that lands on a leaf
emits the symbol, resets the node **and still consumes the current input
bit without looking at it**.  `decodeLoop` mirrors this: it peels one
element of `data` on every step, including emission steps.  The indexing
`ac_dc_destination_ids[component_ptr]` panics on an empty selector list in
Rust; the embedding totalises it with `getD` (the decoder is only ever
invoked with the three selectors of a colour scan header). -/

/-- `EntropyCoding::huffman_map().get`. -/
def hmapGet (m : List ((HuffmanClass × ℕ) × HTree)) (k : HuffmanClass × ℕ) : Option HTree :=
  (m.find? (fun p => p.1 = k)).map (fun p => p.2)

/-- The `(next_class, next_destination_id)` selection plus map lookup that
follows every emission (`num_coeffs % 64` decides DC vs AC). -/
def nextNode (hmap : List ((HuffmanClass × ℕ) × HTree)) (sels : List (ℕ × ℕ))
    (ptr coeffs : ℕ) : Except String HTree :=
  let sel := sels.getD ptr (0, 0)
  let key : HuffmanClass × ℕ :=
    if coeffs % 64 = 0 then (HuffmanClass.DC, sel.1) else (HuffmanClass.AC, sel.2)
  match hmapGet hmap key with
  | some t => .ok t
  | none => .error ("failed to find a component")

/-- The `while self.cursor < self.data.len()` loop of `decode_huffman`,
one recursive step per input element. -/
def decodeLoop (hmap : List ((HuffmanClass × ℕ) × HTree)) (sels : List (ℕ × ℕ)) :
    List ℕ → HTree → ℕ → ℕ → List ℕ → Except String (List (ℕ × ℕ × ℕ))
  | [], _, _, _, _ => .ok []
  | _ :: rest, .nil, ptr, coeffs, batch => decodeLoop hmap sels rest .nil ptr coeffs batch
  | b :: rest, .node code _ l r, ptr, coeffs, batch =>
    if code ≠ 255 then
      let batch2 := batch ++ [code]
      let ptr2 := ptr + 1
      if ptr2 = sels.length then
        match nextNode hmap sels 0 (coeffs + 1) with
        | .error e => .error e
        | .ok nc =>
          match decodeLoop hmap sels rest nc 0 (coeffs + 1) [] with
          | .error e => .error e
          | .ok out => .ok ((batch2.getD 0 0, batch2.getD 1 0, batch2.getD 2 0) :: out)
      else
        match nextNode hmap sels ptr2 coeffs with
        | .error e => .error e
        | .ok nc => decodeLoop hmap sels rest nc ptr2 coeffs batch2
    else
      match b with
      | 0 => decodeLoop hmap sels rest l ptr coeffs batch
      | 1 => decodeLoop hmap sels rest r ptr coeffs batch
      | _ => .error ("unreachable")

/-- `EntropyDecoder::decode_huffman`. -/
def decode_huffman (hmap : List ((HuffmanClass × ℕ) × HTree)) (sels : List (ℕ × ℕ))
    (data : List ℕ) : Except String (List (ℕ × ℕ × ℕ)) :=
  match hmapGet hmap (HuffmanClass.DC, (sels.getD 0 (0, 0)).1) with
  | none => .error ("failed to find a component")
  | some t => decodeLoop hmap sels data t 0 0 []

/-- State of the specified entropy-decoding state machine. -/
structure EntropyState where
  cur : HTree
  ptr : ℕ
  coeffs : ℕ
  batch : List ℕ
  out : List (ℕ × ℕ × ℕ)
deriving DecidableEq, Repr

/-- The emission action shared by both machine variants: append the
symbol, advance the component pointer (wrapping after the last component,
which completes one coefficient position and pushes the triple), and
reset the node to the DC root when the updated coefficient count is 0 mod
64 and the AC root otherwise. -/
def emitSymbol (hmap : List ((HuffmanClass × ℕ) × HTree)) (sels : List (ℕ × ℕ))
    (st : EntropyState) (code : ℕ) : Except String EntropyState :=
  let batch2 := st.batch ++ [code]
  let ptr2 := st.ptr + 1
  if ptr2 = sels.length then
    match nextNode hmap sels 0 (st.coeffs + 1) with
    | .error e => .error e
    | .ok nc =>
      .ok ⟨nc, 0, st.coeffs + 1, [],
        st.out ++ [(batch2.getD 0 0, batch2.getD 1 0, batch2.getD 2 0)]⟩
  else
    match nextNode hmap sels ptr2 st.coeffs with
    | .error e => .error e
    | .ok nc => .ok ⟨nc, ptr2, st.coeffs, batch2, st.out⟩

/-- Modelled from the spec (§4.4 transition rule): consume one bit, move
to the left child on 0 and the right child on 1; if the node arrived at is
a leaf, emit its symbol with **no further bit consumed by the emission
itself**. -/
def stepSpec (hmap : List ((HuffmanClass × ℕ) × HTree)) (sels : List (ℕ × ℕ))
    (st : EntropyState) (b : ℕ) : Except String EntropyState :=
  match st.cur with
  | .nil => .error ("fell off the tree")
  | .node _ _ l r =>
    match b with
    | 0 =>
      match l with
      | .node code _ .nil .nil => emitSymbol hmap sels st code
      | moved => .ok ⟨moved, st.ptr, st.coeffs, st.batch, st.out⟩
    | 1 =>
      match r with
      | .node code _ .nil .nil => emitSymbol hmap sels st code
      | moved => .ok ⟨moved, st.ptr, st.coeffs, st.batch, st.out⟩
    | _ => .error ("unreachable")

/-- The state machine the code actually implements: each input bit drives
one transition, and when the current node's code differs from the 255
sentinel the transition emits, resets — and discards the bit (the Rust
loop increments its cursor unconditionally). -/
def stepAmended (hmap : List ((HuffmanClass × ℕ) × HTree)) (sels : List (ℕ × ℕ))
    (st : EntropyState) (b : ℕ) : Except String EntropyState :=
  match st.cur with
  | .nil => .ok st
  | .node code _ l r =>
    if code ≠ 255 then emitSymbol hmap sels st code
    else
      match b with
      | 0 => .ok ⟨l, st.ptr, st.coeffs, st.batch, st.out⟩
      | 1 => .ok ⟨r, st.ptr, st.coeffs, st.batch, st.out⟩
      | _ => .error ("unreachable")

/-- Initial state: the DC tree of the first scan component. -/
def initState (hmap : List ((HuffmanClass × ℕ) × HTree)) (sels : List (ℕ × ℕ)) :
    Except String EntropyState :=
  match hmapGet hmap (HuffmanClass.DC, (sels.getD 0 (0, 0)).1) with
  | none => .error ("failed to find a component")
  | some t => .ok ⟨t, 0, 0, [], []⟩

/-- Run of the spec's machine over the bit sequence. -/
def runSpec (hmap : List ((HuffmanClass × ℕ) × HTree)) (sels : List (ℕ × ℕ))
    (data : List ℕ) : Except String (List (ℕ × ℕ × ℕ)) :=
  match initState hmap sels with
  | .error e => .error e
  | .ok st0 =>
    match data.foldlM (stepSpec hmap sels) st0 with
    | .error e => .error e
    | .ok fin => .ok fin.out

/-- Run of the amended machine over the bit sequence. -/
def runAmended (hmap : List ((HuffmanClass × ℕ) × HTree)) (sels : List (ℕ × ℕ))
    (data : List ℕ) : Except String (List (ℕ × ℕ × ℕ)) :=
  match initState hmap sels with
  | .error e => .error e
  | .ok st0 =>
    match data.foldlM (stepAmended hmap sels) st0 with
    | .error e => .error e
    | .ok fin => .ok fin.out

/-- A two-level tree: internal root, leaf symbols 5 (left) and 6 (right). -/
def treeT : HTree := .node 255 14 (.node 5 5 .nil .nil) (.node 6 9 .nil .nil)

/-- A map holding `treeT` as both the DC and the AC tree of destination 0. -/
def hmapC : List ((HuffmanClass × ℕ) × HTree) :=
  [((HuffmanClass.DC, 0), treeT), ((HuffmanClass.AC, 0), treeT)]

/-- Three colour components, all selecting DC/AC destination 0. -/
def selsC : List (ℕ × ℕ) := [(0, 0), (0, 0), (0, 0)]

/-- C1 counterexample: on the sanitized bits `[0, 0, 0]` the spec's
machine (no bit consumed by emissions) decodes three symbols and outputs
the triple `(5, 5, 5)`, while the code consumes one bit per emission and
decodes only one symbol, outputting nothing. -/
theorem c1_counterexample_emission_consumes_bit :
    decode_huffman hmapC selsC [0, 0, 0] = .ok [] ∧
      runSpec hmapC selsC [0, 0, 0] = .ok [(5, 5, 5)] := ⟨rfl, rfl⟩

theorem except_bind_ok {α β : Type} (a : α) (f : α → Except String β) :
    (Except.ok a >>= f) = f a := rfl

theorem except_bind_error {α β : Type} (e : String) (f : α → Except String β) :
    ((Except.error e : Except String α) >>= f) = .error e := rfl

theorem foldlM_stepAmended_eq (hmap : List ((HuffmanClass × ℕ) × HTree))
    (sels : List (ℕ × ℕ)) :
    ∀ (data : List ℕ) (cur : HTree) (ptr coeffs : ℕ) (batch : List ℕ)
      (out : List (ℕ × ℕ × ℕ)),
      Except.map EntropyState.out
          (data.foldlM (stepAmended hmap sels) ⟨cur, ptr, coeffs, batch, out⟩)
        = Except.map (fun l => out ++ l) (decodeLoop hmap sels data cur ptr coeffs batch) := by
  intro data
  induction data with
  | nil =>
    intro cur ptr coeffs batch out
    show Except.ok out = Except.ok (out ++ [])
    rw [List.append_nil]
  | cons b rest ih =>
    intro cur ptr coeffs batch out
    rw [List.foldlM_cons]
    cases cur with
    | nil =>
      rw [show stepAmended hmap sels ⟨.nil, ptr, coeffs, batch, out⟩ b
          = .ok ⟨.nil, ptr, coeffs, batch, out⟩ from rfl, except_bind_ok]
      exact ih .nil ptr coeffs batch out
    | node code f l r =>
      by_cases hcode : code = 255
      · subst hcode
        rw [show stepAmended hmap sels ⟨.node 255 f l r, ptr, coeffs, batch, out⟩ b
            = (match b with
               | 0 => .ok ⟨l, ptr, coeffs, batch, out⟩
               | 1 => .ok ⟨r, ptr, coeffs, batch, out⟩
               | _ => .error ("unreachable")) from by simp [stepAmended]]
        rw [show decodeLoop hmap sels (b :: rest) (.node 255 f l r) ptr coeffs batch
            = (match b with
               | 0 => decodeLoop hmap sels rest l ptr coeffs batch
               | 1 => decodeLoop hmap sels rest r ptr coeffs batch
               | _ => .error ("unreachable")) from by simp [decodeLoop]]
        rcases b with _ | _ | n
        · exact ih l ptr coeffs batch out
        · exact ih r ptr coeffs batch out
        · rfl
      · rw [show stepAmended hmap sels ⟨.node code f l r, ptr, coeffs, batch, out⟩ b
            = emitSymbol hmap sels ⟨.node code f l r, ptr, coeffs, batch, out⟩ code from by
              simp [stepAmended, hcode]]
        by_cases hptr : ptr + 1 = sels.length
        · cases hnn : nextNode hmap sels 0 (coeffs + 1) with
          | error e =>
            rw [show emitSymbol hmap sels ⟨.node code f l r, ptr, coeffs, batch, out⟩ code
                = .error e from by simp [emitSymbol, hptr, hnn]]
            rw [except_bind_error]
            rw [show decodeLoop hmap sels (b :: rest) (.node code f l r) ptr coeffs batch
                = .error e from by simp [decodeLoop, hcode, hptr, hnn]]
            rfl
          | ok nc =>
            rw [show emitSymbol hmap sels ⟨.node code f l r, ptr, coeffs, batch, out⟩ code
                = .ok ⟨nc, 0, coeffs + 1, [],
                    out ++ [((batch ++ [code]).getD 0 0, (batch ++ [code]).getD 1 0,
                      (batch ++ [code]).getD 2 0)]⟩ from by simp [emitSymbol, hptr, hnn]]
            rw [except_bind_ok]
            have h := ih nc 0 (coeffs + 1) []
              (out ++ [((batch ++ [code]).getD 0 0, (batch ++ [code]).getD 1 0,
                (batch ++ [code]).getD 2 0)])
            rw [h]
            rw [show decodeLoop hmap sels (b :: rest) (.node code f l r) ptr coeffs batch
                = (match decodeLoop hmap sels rest nc 0 (coeffs + 1) [] with
                   | .error e => .error e
                   | .ok o => .ok (((batch ++ [code]).getD 0 0, (batch ++ [code]).getD 1 0,
                       (batch ++ [code]).getD 2 0) :: o)) from by
                  simp [decodeLoop, hcode, hptr, hnn]]
            cases hdec : decodeLoop hmap sels rest nc 0 (coeffs + 1) [] with
            | error e => rfl
            | ok o => simp [Except.map]
        · cases hnn : nextNode hmap sels (ptr + 1) coeffs with
          | error e =>
            rw [show emitSymbol hmap sels ⟨.node code f l r, ptr, coeffs, batch, out⟩ code
                = .error e from by simp [emitSymbol, hptr, hnn]]
            rw [except_bind_error]
            rw [show decodeLoop hmap sels (b :: rest) (.node code f l r) ptr coeffs batch
                = .error e from by simp [decodeLoop, hcode, hptr, hnn]]
            rfl
          | ok nc =>
            rw [show emitSymbol hmap sels ⟨.node code f l r, ptr, coeffs, batch, out⟩ code
                = .ok ⟨nc, ptr + 1, coeffs, batch ++ [code], out⟩ from by
                  simp [emitSymbol, hptr, hnn]]
            rw [except_bind_ok]
            rw [show decodeLoop hmap sels (b :: rest) (.node code f l r) ptr coeffs batch
                = decodeLoop hmap sels rest nc (ptr + 1) coeffs (batch ++ [code]) from by
                  simp [decodeLoop, hcode, hptr, hnn]]
            exact ih nc (ptr + 1) coeffs (batch ++ [code]) out

/-- C1 (amended): `decode_huffman` coincides, on every input, with the
per-bit state machine in which each transition consumes one bit, moving
left on 0 and right on 1 from sentinel-coded nodes, and in which a
transition from a symbol-coded node emits the symbol, advances the
component pointer (wrapping after the last component), resets the node to
the DC root when the updated coefficient count is 0 mod 64 and the AC
root otherwise — and also discards the consumed bit. -/
theorem c1_amended_decoder_machine (hmap : List ((HuffmanClass × ℕ) × HTree))
    (sels : List (ℕ × ℕ)) (data : List ℕ) :
    decode_huffman hmap sels data = runAmended hmap sels data := by
  unfold decode_huffman runAmended initState
  cases hg : hmapGet hmap (HuffmanClass.DC, (sels.getD 0 (0, 0)).1) with
  | none => rfl
  | some t =>
    show decodeLoop hmap sels data t 0 0 []
      = (match data.foldlM (stepAmended hmap sels) ⟨t, 0, 0, [], []⟩ with
         | .error e => .error e
         | .ok fin => .ok fin.out)
    have h := foldlM_stepAmended_eq hmap sels data t 0 0 [] []
    cases hf : (data.foldlM (stepAmended hmap sels) ⟨t, 0, 0, [], []⟩ :
        Except String EntropyState) with
    | error e =>
      rw [hf] at h
      cases hdec : decodeLoop hmap sels data t 0 0 [] with
      | error e2 =>
        rw [hdec] at h
        simp only [Except.map] at h
        exact h.symm
      | ok o =>
        rw [hdec] at h
        simp [Except.map] at h
    | ok fin =>
      rw [hf] at h
      cases hdec : decodeLoop hmap sels data t 0 0 [] with
      | error e2 =>
        rw [hdec] at h
        simp [Except.map] at h
      | ok o =>
        rw [hdec] at h
        simp only [Except.map, List.nil_append] at h
        exact h.symm

theorem getD_ne_255 : ∀ (l : List ℕ) (k : ℕ), (∀ x ∈ l, x ≠ 255) → l.getD k 0 ≠ 255
  | [], k, _ => by simp [List.getD]
  | a :: l, 0, h => by simpa using h a (by simp)
  | a :: l, k + 1, h =>
    by simpa [List.getD_cons_succ] using getD_ne_255 l k (fun x hx => h x (by simp [hx]))

theorem decodeLoop_no255 (hmap : List ((HuffmanClass × ℕ) × HTree)) (sels : List (ℕ × ℕ)) :
    ∀ (data : List ℕ) (cur : HTree) (ptr coeffs : ℕ) (batch : List ℕ)
      (out : List (ℕ × ℕ × ℕ)),
      (∀ x ∈ batch, x ≠ 255) → decodeLoop hmap sels data cur ptr coeffs batch = .ok out →
      ∀ tr ∈ out, tr.1 ≠ 255 ∧ tr.2.1 ≠ 255 ∧ tr.2.2 ≠ 255 := by
  intro data
  induction data with
  | nil =>
    intro cur ptr coeffs batch out _ hdec tr htr
    cases hdec
    cases htr
  | cons b rest ih =>
    intro cur ptr coeffs batch out hbatch hdec tr htr
    cases cur with
    | nil => exact ih .nil ptr coeffs batch out hbatch hdec tr htr
    | node code f l r =>
      by_cases hcode : code = 255
      · subst hcode
        simp only [decodeLoop, if_neg (by simp : ¬(255 : ℕ) ≠ 255)] at hdec
        rcases b with _ | _ | n
        · exact ih l ptr coeffs batch out hbatch hdec tr htr
        · exact ih r ptr coeffs batch out hbatch hdec tr htr
        · cases hdec
      · have hbatch2 : ∀ x ∈ batch ++ [code], x ≠ 255 := by
          intro x hx
          rcases List.mem_append.mp hx with h1 | h1
          · exact hbatch x h1
          · simpa [List.mem_singleton.mp h1] using hcode
        simp only [decodeLoop, if_pos hcode] at hdec
        by_cases hptr : ptr + 1 = sels.length
        · rw [if_pos hptr] at hdec
          cases hnn : nextNode hmap sels 0 (coeffs + 1) with
          | error e => simp only [hnn] at hdec; cases hdec
          | ok nc =>
            simp only [hnn] at hdec
            cases hrec : decodeLoop hmap sels rest nc 0 (coeffs + 1) [] with
            | error e => simp only [hrec] at hdec; cases hdec
            | ok o =>
              simp only [hrec] at hdec
              have hout : ((batch ++ [code]).getD 0 0, (batch ++ [code]).getD 1 0,
                  (batch ++ [code]).getD 2 0) :: o = out := Except.ok.inj hdec
              rw [← hout] at htr
              rcases List.mem_cons.mp htr with h1 | h1
              · subst h1
                exact ⟨getD_ne_255 _ _ hbatch2, getD_ne_255 _ _ hbatch2,
                  getD_ne_255 _ _ hbatch2⟩
              · exact ih nc 0 (coeffs + 1) [] o (by intro x hx; cases hx) hrec tr h1
        · rw [if_neg hptr] at hdec
          cases hnn : nextNode hmap sels (ptr + 1) coeffs with
          | error e => simp only [hnn] at hdec; cases hdec
          | ok nc =>
            simp only [hnn] at hdec
            exact ih nc (ptr + 1) coeffs (batch ++ [code]) out hbatch2 hdec tr htr

/-- C10: the Huffman tree builder tags every node that has a child with
the sentinel code 255, and the entropy decoder emits a symbol exactly
when the node's code differs from 255 — so its decoded output never
contains the symbol 255, whatever trees the map holds (including trees
declaring 255 as a genuine leaf symbol). -/
theorem c10_sentinel_tagging :
    (∀ (cfs : List (ℕ × ℕ)) (t : HTree), huffmanTreeFrom cfs = some t →
      sentinelTagged t = true) ∧
    (∀ (hmap : List ((HuffmanClass × ℕ) × HTree)) (sels : List (ℕ × ℕ)) (data : List ℕ)
      (out : List (ℕ × ℕ × ℕ)), decode_huffman hmap sels data = .ok out →
      ∀ tr ∈ out, tr.1 ≠ 255 ∧ tr.2.1 ≠ 255 ∧ tr.2.2 ≠ 255) := by
  refine ⟨huffmanTreeFrom_tagged, ?_⟩
  intro hmap sels data out hdec tr htr
  unfold decode_huffman at hdec
  revert hdec
  cases hg : hmapGet hmap (HuffmanClass.DC, (sels.getD 0 (0, 0)).1) with
  | none => intro hdec; cases hdec
  | some t =>
    intro hdec
    exact decodeLoop_no255 hmap sels data t 0 0 [] out (by intro x hx; cases hx) hdec tr htr

/-- Witness for C10 at concrete inputs: a single-symbol tree is tagged,
and a concrete six-bit decode that outputs `(5, 5, 5)` contains no 255. -/
theorem c10_sentinel_tagging_witness :
    sentinelTagged (HTree.node 7 3 .nil .nil) = true ∧
      ((5 : ℕ) ≠ 255 ∧ (5 : ℕ) ≠ 255 ∧ (5 : ℕ) ≠ 255) :=
  ⟨c10_sentinel_tagging.1 [(7, 3)] (HTree.node 7 3 .nil .nil) rfl,
   c10_sentinel_tagging.2 hmapC selsC [0, 0, 0, 0, 0, 0] [(5, 5, 5)] rfl (5, 5, 5) (by simp)⟩

/-! ## Dequantizer (`src/src/dequantizer.rs` and the quantization-table
map construction in `src/src/decoder.rs`)

`Decoder::decode` builds `quantization_table_map : component_id ↦ table`
by looking each frame-header component's `qt_table_id` up among the
parsed tables (`find` by `table_id`), failing when none matches.
`Dequantizer::dequantize` then zips the scan component order with the
block's three coefficient arrays and multiplies element-wise — as
`Simd<u8, 64>` values, so each product wraps modulo 256. -/

structure QTable where
  tableId : ℕ
  elements : ℕ → ℕ

/-- `quantization_tables.iter().find(|qt| qt.table_id == qt_table_id)`. -/
def findQt (tables : List QTable) (qtid : ℕ) : Option QTable :=
  tables.find? (fun t => t.tableId == qtid)

/-- The map-building loop of `Decoder::decode`, with the `?` early return
on a missing table (HashMap insert = newest entry shadows older ones,
modelled by prepending). -/
def buildQtMapGo (tables : List QTable) :
    List (ℕ × ℕ) → List (ℕ × QTable) → Except String (List (ℕ × QTable))
  | [], acc => .ok acc
  | c :: cs, acc =>
    match findQt tables c.2 with
    | some t => buildQtMapGo tables cs ((c.1, t) :: acc)
    | none => .error ("failed to find qt table id")

def buildQtMap (components : List (ℕ × ℕ)) (tables : List QTable) :
    Except String (List (ℕ × QTable)) :=
  buildQtMapGo tables components []

/-- `quantization_table_map.get(component_id)`. -/
def qmapGet (m : List (ℕ × QTable)) (cid : ℕ) : Option QTable :=
  (m.find? (fun p => p.1 == cid)).map (fun p => p.2)

/-- `Simd<u8, 64>` element-wise multiplication: wraps modulo 256. -/
def mult64 (block qt : ℕ → ℕ) : ℕ → ℕ := fun k => block k * qt k % 256

/-- Fail-fast map over a list (the semantics of collecting an iterator of
`Result`s into `Result<Vec<_>>`). -/
def exceptMapList {α β : Type} (f : α → Except String β) : List α → Except String (List β)
  | [] => .ok []
  | x :: xs =>
    match f x with
    | .error e => .error e
    | .ok y =>
      match exceptMapList f xs with
      | .error e => .error e
      | .ok ys => .ok (y :: ys)

/-- The per-MCU inner loop of `Dequantizer::dequantize`: zip the scan
component order with the three component blocks, look each component's
table up, multiply. -/
def dequantizeBlockList (order : List ℕ) (qmap : List (ℕ × QTable))
    (cs : List (ℕ → ℕ)) : Except String (List (ℕ → ℕ)) :=
  exceptMapList
    (fun (p : ℕ × (ℕ → ℕ)) =>
      match qmapGet qmap p.1 with
      | some t => .ok (mult64 p.2 t.elements)
      | none => .error ("failed to find component id"))
    (order.zip cs)

/-- All-zero coefficient block, the `getD` default for the (asserted
impossible in the source) short-result case. -/
def zeroBlock : ℕ → ℕ := fun _ => 0

/-- `Dequantizer::dequantize`. -/
def dequantize (data : List ((ℕ → ℕ) × (ℕ → ℕ) × (ℕ → ℕ))) (order : List ℕ)
    (qmap : List (ℕ × QTable)) : Except String (List ((ℕ → ℕ) × (ℕ → ℕ) × (ℕ → ℕ))) :=
  exceptMapList
    (fun mcu =>
      match dequantizeBlockList order qmap [mcu.1, mcu.2.1, mcu.2.2] with
      | .error e => .error e
      | .ok ls => .ok (ls.getD 0 zeroBlock, ls.getD 1 zeroBlock, ls.getD 2 zeroBlock))
    data

/-- Quantization table whose 64 entries all equal 128. -/
def qt128 : QTable := ⟨0, fun _ => 128⟩

/-- Component map sending scan components 1, 2, 3 to `qt128`. -/
def qmapCex : List (ℕ × QTable) := [(1, qt128), (2, qt128), (3, qt128)]

/-- Constant coefficient block with value 2. -/
def block2 : ℕ → ℕ := fun _ => 2

/-- C6 counterexample: with coefficient 2 and table entry 128 the
dequantizer outputs (2 * 128) mod 256 = 0, not the exact product 256:
`u8` SIMD multiplication wraps. -/
theorem c6_counterexample_mod256 :
    (dequantize [(block2, block2, block2)] [1, 2, 3] qmapCex).map
        (fun out => (out.getD 0 (zeroBlock, zeroBlock, zeroBlock)).1 0) = .ok 0 ∧
      block2 0 * qt128.elements 0 = 256 ∧ (0 : ℕ) ≠ 256 := ⟨rfl, rfl, by decide⟩

theorem dequantizeBlockList_three (a b c : ℕ) (qmap : List (ℕ × QTable))
    (t1 t2 t3 : QTable) (h1 : qmapGet qmap a = some t1) (h2 : qmapGet qmap b = some t2)
    (h3 : qmapGet qmap c = some t3) (c1 c2 c3 : ℕ → ℕ) :
    dequantizeBlockList [a, b, c] qmap [c1, c2, c3]
      = .ok [mult64 c1 t1.elements, mult64 c2 t2.elements, mult64 c3 t3.elements] := by
  simp [dequantizeBlockList, exceptMapList, h1, h2, h3]

theorem exceptMapList_cons_ok {α β : Type} (f : α → Except String β) (x : α)
    (xs : List α) (y : β) (ys : List β) (hx : f x = .ok y)
    (hxs : exceptMapList f xs = .ok ys) : exceptMapList f (x :: xs) = .ok (y :: ys) := by
  rw [exceptMapList, hx, hxs]

theorem buildQtMapGo_error (tables : List QTable) :
    ∀ (comps : List (ℕ × ℕ)) (acc : List (ℕ × QTable)),
      (∃ p ∈ comps, findQt tables p.2 = none) →
      ∃ e, buildQtMapGo tables comps acc = .error e := by
  intro comps
  induction comps with
  | nil =>
    intro acc h
    rcases h with ⟨p, hp, _⟩
    cases hp
  | cons q qs ih =>
    intro acc h
    cases hf : findQt tables q.2 with
    | none =>
      refine ⟨"failed to find qt table id", ?_⟩
      simp [buildQtMapGo, hf]
    | some t =>
      have hstep : buildQtMapGo tables (q :: qs) acc
          = buildQtMapGo tables qs ((q.1, t) :: acc) := by
        simp [buildQtMapGo, hf]
      rw [hstep]
      refine ih ((q.1, t) :: acc) ?_
      rcases h with ⟨p, hp, hnone⟩
      rcases List.mem_cons.mp hp with h1 | h1
      · rw [h1] at hnone
        rw [hnone] at hf
        cases hf
      · exact ⟨p, h1, hnone⟩

/-- C6 (amended): the dequantizer multiplies each coefficient by the
matching table entry **modulo 256** (`u8` SIMD wrap); table selection and
the failure mode are as claimed: the map is `component_id ↦ table found
by qt_table_id`, components are taken in scan order, and building the map
fails with an error when some component's `qt_table_id` matches no parsed
table. -/
theorem c6_dequantize_mod256 :
    (∀ (data : List ((ℕ → ℕ) × (ℕ → ℕ) × (ℕ → ℕ))) (a b c : ℕ)
      (qmap : List (ℕ × QTable)) (t1 t2 t3 : QTable),
      qmapGet qmap a = some t1 → qmapGet qmap b = some t2 → qmapGet qmap c = some t3 →
      dequantize data [a, b, c] qmap
        = .ok (data.map (fun mcu => (mult64 mcu.1 t1.elements,
            mult64 mcu.2.1 t2.elements, mult64 mcu.2.2 t3.elements)))) ∧
    (∀ (comps : List (ℕ × ℕ)) (tables : List QTable),
      (∃ p ∈ comps, findQt tables p.2 = none) →
      ∃ e, buildQtMap comps tables = .error e) := by
  constructor
  · intro data a b c qmap t1 t2 t3 h1 h2 h3
    induction data with
    | nil => rfl
    | cons mcu rest ih =>
      refine exceptMapList_cons_ok _ mcu rest _ _ ?_ ih
      rw [show dequantizeBlockList [a, b, c] qmap [mcu.1, mcu.2.1, mcu.2.2]
          = .ok [mult64 mcu.1 t1.elements, mult64 mcu.2.1 t2.elements,
              mult64 mcu.2.2 t3.elements] from
          dequantizeBlockList_three a b c qmap t1 t2 t3 h1 h2 h3 mcu.1 mcu.2.1 mcu.2.2]
      rfl
  · intro comps tables h
    exact buildQtMapGo_error tables comps [] h

/-- Witness for C6 at concrete inputs: a successful three-component
dequantization and a failing map construction. -/
theorem c6_dequantize_mod256_witness :
    dequantize [(block2, block2, block2)] [4, 5, 6] [(4, qt128), (5, qt128), (6, qt128)]
        = .ok [(mult64 block2 qt128.elements, mult64 block2 qt128.elements,
            mult64 block2 qt128.elements)] ∧
      ∃ e, buildQtMap [(9, 7)] [] = .error e :=
  ⟨c6_dequantize_mod256.1 [(block2, block2, block2)] 4 5 6
      [(4, qt128), (5, qt128), (6, qt128)] qt128 qt128 qt128 rfl rfl rfl,
   c6_dequantize_mod256.2 [(9, 7)] [] ⟨(9, 7), by simp, rfl⟩⟩

/-! ## Byte-stuffing removal (`src/src/parser.rs`, `Parser::parse_image_data`)

The Rust loop walks the buffer from `start` up to `buffer.len() - 2`
(dropping the trailing EOI marker) in 64-byte windows kept in a reused
`temp_chunk` whose tail keeps the previous window's bytes when the last
window is short.  The stuffing mask compares each lane with the chunk
**rotated left by one lane**, so lane 63's "next byte" is lane 0 of the
same window, not the next input byte; the per-window emit loop pushes the
byte and skips 2 on a mask hit, 1 otherwise, and the window cursor always
advances by 64.  `chunkEmitF`/`imageScanF` carry fuel only to make the
recursion structural; the supplied fuel never runs out. -/

/-- Modelled from the spec: "for each `0xFF` immediately followed by
`0x00`, emit the `0xFF` and skip both input bytes; otherwise emit the
byte and advance by one". -/
def sanitizeSpec : List ℕ → List ℕ
  | [] => []
  | [b] => [b]
  | a :: b :: rest =>
    if a = 255 ∧ b = 0 then 255 :: sanitizeSpec rest else a :: sanitizeSpec (b :: rest)

/-- `temp_chunk[..len].copy_from_slice(...)`: the new bytes overwrite the
front, stale bytes beyond `chunk.length` survive. -/
def chunkUpdate (temp chunk : List ℕ) : List ℕ := chunk ++ temp.drop chunk.length

/-- `zero_after_ff_mask` at lane `i`: the rotated comparison wraps lane 63
around to lane 0. -/
def stuffMask (temp : List ℕ) (i : ℕ) : Bool :=
  temp.getD i 0 == 255 && temp.getD ((i + 1) % 64) 0 == 0

/-- The per-window emit loop (`while i < len`). -/
def chunkEmitF (temp : List ℕ) (len : ℕ) : ℕ → ℕ → List ℕ
  | 0, _ => []
  | fuel + 1, i =>
    if i < len then
      if stuffMask temp i then temp.getD i 0 :: chunkEmitF temp len fuel (i + 2)
      else temp.getD i 0 :: chunkEmitF temp len fuel (i + 1)
    else []

def chunkEmit (temp : List ℕ) (len i : ℕ) : List ℕ := chunkEmitF temp len len i

/-- The outer window loop (`while current_index < buffer.len() - 2`). -/
def imageScanF (buffer : List ℕ) (limit : ℕ) : ℕ → List ℕ → ℕ → List ℕ
  | 0, _, _ => []
  | fuel + 1, temp, cur =>
    if cur < limit then
      chunkEmit (chunkUpdate temp ((buffer.drop cur).take (min (cur + 64) limit - cur)))
          (min (cur + 64) limit - cur) 0 ++
        imageScanF buffer limit fuel
          (chunkUpdate temp ((buffer.drop cur).take (min (cur + 64) limit - cur))) (cur + 64)
    else []

/-- `Parser::parse_image_data`. -/
def parse_image_data (buffer : List ℕ) (start : ℕ) : List ℕ :=
  imageScanF buffer (buffer.length - 2) (buffer.length - 2) (List.replicate 64 0) start

/-- 63 filler bytes, then a stuffed `FF 00` pair straddling the boundary
between the first and second 64-byte window, then the EOI marker. -/
def c2straddle : List ℕ := List.replicate 63 1 ++ [255, 0, 255, 217]

/-- C2 counterexample: on `c2straddle` the stuffed pair sits at positions
63/64, straddling the 64-byte window boundary; the rotated mask compares
the `0xFF` against lane 0 instead, so the `0x00` is emitted instead of
skipped and the output disagrees with the per-pair specification. -/
theorem c2_counterexample_chunk_straddle :
    parse_image_data c2straddle 0
      ≠ sanitizeSpec ((c2straddle.drop 0).take (c2straddle.length - 2 - 0)) := by decide

theorem sanitizeSpec_cons2 (a b : ℕ) (rest : List ℕ) :
    sanitizeSpec (a :: b :: rest)
      = if a = 255 ∧ b = 0 then 255 :: sanitizeSpec rest else a :: sanitizeSpec (b :: rest) := by
  rw [sanitizeSpec]

theorem sanitizeSpec_append : ∀ (c1 c2 : List ℕ),
    ¬(c1.getLast? = some 255 ∧ c2.head? = some 0) →
    sanitizeSpec (c1 ++ c2) = sanitizeSpec c1 ++ sanitizeSpec c2 := by
  have H : ∀ (n : ℕ) (c1 : List ℕ), c1.length ≤ n → ∀ c2 : List ℕ,
      ¬(c1.getLast? = some 255 ∧ c2.head? = some 0) →
      sanitizeSpec (c1 ++ c2) = sanitizeSpec c1 ++ sanitizeSpec c2 := by
    intro n
    induction n with
    | zero =>
      intro c1 hlen c2 hh
      have hnil : c1 = [] := List.length_eq_zero.mp (Nat.le_zero.mp hlen)
      subst hnil
      simp [sanitizeSpec]
    | succ n ih =>
      intro c1 hlen c2 hh
      rcases c1 with _ | ⟨a, _ | ⟨b, rest⟩⟩
      · simp [sanitizeSpec]
      · cases c2 with
        | nil => simp [sanitizeSpec]
        | cons d c2t =>
          show sanitizeSpec (a :: d :: c2t) = sanitizeSpec [a] ++ sanitizeSpec (d :: c2t)
          have hcond : ¬(a = 255 ∧ d = 0) := by
            intro hx
            exact hh ⟨by simp [hx.1], by simp [hx.2]⟩
          rw [sanitizeSpec_cons2, if_neg hcond]
          simp [sanitizeSpec]
      · show sanitizeSpec (a :: b :: (rest ++ c2)) = sanitizeSpec (a :: b :: rest) ++ _
        by_cases hab : a = 255 ∧ b = 0
        · rw [show sanitizeSpec (a :: b :: (rest ++ c2)) = 255 :: sanitizeSpec (rest ++ c2) from
            by rw [sanitizeSpec, if_pos hab]]
          rw [show sanitizeSpec (a :: b :: rest) = 255 :: sanitizeSpec rest from
            by rw [sanitizeSpec, if_pos hab]]
          have hrest : ¬(rest.getLast? = some 255 ∧ c2.head? = some 0) := by
            cases rest with
            | nil => simp
            | cons r rt =>
              intro hx
              refine hh ⟨?_, hx.2⟩
              rw [List.getLast?_cons_cons, List.getLast?_cons_cons]
              exact hx.1
          rw [ih rest (by simp at hlen; omega) c2 hrest]
          simp
        · rw [show sanitizeSpec (a :: b :: (rest ++ c2)) = a :: sanitizeSpec (b :: (rest ++ c2)) from
            by rw [sanitizeSpec, if_neg hab]]
          rw [show sanitizeSpec (a :: b :: rest) = a :: sanitizeSpec (b :: rest) from
            by rw [sanitizeSpec, if_neg hab]]
          have hbc : ¬((b :: rest).getLast? = some 255 ∧ c2.head? = some 0) := by
            intro hx
            refine hh ⟨?_, hx.2⟩
            rw [List.getLast?_cons_cons]
            exact hx.1
          have := ih (b :: rest) (by simp at hlen ⊢; omega) c2 hbc
          rw [show (b :: rest) ++ c2 = b :: (rest ++ c2) from rfl] at this
          rw [this]
          simp
  intro c1 c2 hh
  exact H c1.length c1 le_rfl c2 hh

theorem take_drop_cons (temp : List ℕ) (len i : ℕ) (hi : i < len) (hlen64 : len ≤ 64)
    (htemp : temp.length = 64) :
    (temp.take len).drop i = temp.getD i 0 :: (temp.take len).drop (i + 1) := by
  have hTlen : (temp.take len).length = len := by
    rw [List.length_take]
    omega
  rw [List.drop_eq_getElem_cons (by omega : i < (temp.take len).length)]
  congr 1
  rw [List.getElem_take]
  rw [List.getD_eq_getElem temp 0 (by omega : i < temp.length)]

theorem take_drop_nil (temp : List ℕ) (len i : ℕ) (hi : len ≤ i) :
    (temp.take len).drop i = [] := by
  apply List.drop_eq_nil_of_le
  rw [List.length_take]
  omega

theorem chunkEmitF_eq (temp : List ℕ) (len : ℕ) (hlen64 : len ≤ 64) (htemp : temp.length = 64) :
    ∀ (fuel i : ℕ), len - i ≤ fuel →
      chunkEmitF temp len fuel i = sanitizeSpec ((temp.take len).drop i) := by
  intro fuel
  induction fuel with
  | zero =>
    intro i hi
    rw [take_drop_nil temp len i (by omega)]
    rfl
  | succ fuel ih =>
    intro i hi
    by_cases hil : i < len
    · rw [show chunkEmitF temp len (fuel + 1) i
          = if stuffMask temp i then temp.getD i 0 :: chunkEmitF temp len fuel (i + 2)
            else temp.getD i 0 :: chunkEmitF temp len fuel (i + 1) from
          by rw [chunkEmitF, if_pos hil]]
      by_cases hii : i + 1 < len
      · have hmod : (i + 1) % 64 = i + 1 := Nat.mod_eq_of_lt (by omega)
        rw [take_drop_cons temp len i hil hlen64 htemp,
          take_drop_cons temp len (i + 1) hii hlen64 htemp, sanitizeSpec_cons2]
        by_cases hc : temp.getD i 0 = 255 ∧ temp.getD (i + 1) 0 = 0
        · have hmask : stuffMask temp i = true := by
            simp only [stuffMask, hmod]
            rw [hc.1, hc.2]
            rfl
          rw [hmask, if_pos rfl, if_pos hc, ih (i + 2) (by omega), hc.1]
        · have hmask : stuffMask temp i = false := by
            simp only [stuffMask, hmod, Bool.and_eq_false_iff, beq_eq_false_iff_ne, ne_eq]
            by_cases h1 : temp.getD i 0 = 255
            · right
              intro h2
              exact hc ⟨h1, h2⟩
            · left
              exact h1
          rw [hmask, if_neg (by simp), if_neg hc, ih (i + 1) (by omega),
            take_drop_cons temp len (i + 1) hii hlen64 htemp]
      · have hsing : (temp.take len).drop i = [temp.getD i 0] := by
          rw [take_drop_cons temp len i hil hlen64 htemp,
            take_drop_nil temp len (i + 1) (by omega)]
        rw [hsing]
        have h2 : chunkEmitF temp len fuel (i + 2) = [] := by
          rw [ih (i + 2) (by omega), take_drop_nil temp len (i + 2) (by omega)]
          rfl
        have h1 : chunkEmitF temp len fuel (i + 1) = [] := by
          rw [ih (i + 1) (by omega), take_drop_nil temp len (i + 1) (by omega)]
          rfl
        cases hmask : stuffMask temp i
        · rw [if_neg (by simp), h1]
          rfl
        · rw [if_pos rfl, h2]
          rfl
    · rw [show chunkEmitF temp len (fuel + 1) i = [] from by rw [chunkEmitF, if_neg hil],
        take_drop_nil temp len i (by omega)]
      rfl

theorem drop_take_getElem (l : List ℕ) (n m k : ℕ) (hk : k < m) :
    ((l.drop n).take m)[k]? = l[n + k]? := by
  rw [List.getElem?_take, if_pos hk, List.getElem?_drop]

theorem drop_take_getD (l : List ℕ) (n m k : ℕ) (hk : k < m) :
    ((l.drop n).take m).getD k 0 = l.getD (n + k) 0 := by
  rw [List.getD_eq_getElem?_getD, List.getD_eq_getElem?_getD, drop_take_getElem l n m k hk]

theorem getLast?_eq_getD_63 {L : List ℕ} (h : L.length = 64) :
    L.getLast? = some (L.getD 63 0) := by
  rw [List.getLast?_eq_getElem?, h, List.getElem?_eq_getElem (by omega),
    List.getD_eq_getElem L 0 (by omega)]

theorem drop_take_head? (l : List ℕ) (n m : ℕ) (hm : 0 < m) (hn : n < l.length) :
    ((l.drop n).take m).head? = some (l.getD n 0) := by
  rw [List.head?_eq_getElem?, drop_take_getElem l n m 0 hm, Nat.add_zero,
    List.getElem?_eq_getElem hn, List.getD_eq_getElem l 0 hn]

theorem imageScanF_eq (buffer : List ℕ) (limit : ℕ) (hlim : limit ≤ buffer.length) :
    ∀ (fuel : ℕ) (temp : List ℕ) (cur : ℕ), temp.length = 64 →
      limit - cur ≤ 64 * fuel →
      (∀ j, cur + 64 * j + 64 < limit →
        ¬(buffer.getD (cur + 64 * j + 63) 0 = 255 ∧ buffer.getD (cur + 64 * j + 64) 0 = 0)) →
      imageScanF buffer limit fuel temp cur
        = sanitizeSpec ((buffer.drop cur).take (limit - cur)) := by
  intro fuel
  induction fuel with
  | zero =>
    intro temp cur htemp hfuel hstr
    have h0 : limit - cur = 0 := by omega
    rw [h0]
    rfl
  | succ fuel ih =>
    intro temp cur htemp hfuel hstr
    by_cases hcur : cur < limit
    · rw [show imageScanF buffer limit (fuel + 1) temp cur
          = chunkEmit
              (chunkUpdate temp ((buffer.drop cur).take (min (cur + 64) limit - cur)))
              (min (cur + 64) limit - cur) 0 ++
            imageScanF buffer limit fuel
              (chunkUpdate temp ((buffer.drop cur).take (min (cur + 64) limit - cur)))
              (cur + 64) from by rw [imageScanF, if_pos hcur]]
      set len := min (cur + 64) limit - cur with hlendef
      set chunk := (buffer.drop cur).take len with hchunkdef
      have hlen64 : len ≤ 64 := by omega
      have hlenpos : 1 ≤ len := by omega
      have hlenlim : cur + len ≤ limit := by omega
      have hchlen : chunk.length = len := by
        rw [hchunkdef, List.length_take, List.length_drop]
        omega
      have htemp2 : (chunkUpdate temp chunk).length = 64 := by
        rw [chunkUpdate, List.length_append, List.length_drop, hchlen, htemp]
        omega
      have htake : (chunkUpdate temp chunk).take len = chunk := by
        rw [chunkUpdate]
        exact List.take_left' hchlen
      rw [show chunkEmit (chunkUpdate temp chunk) len 0
          = sanitizeSpec (((chunkUpdate temp chunk).take len).drop 0) from
          chunkEmitF_eq (chunkUpdate temp chunk) len hlen64 htemp2 len 0 (by omega)]
      rw [List.drop_zero, htake]
      rw [ih (chunkUpdate temp chunk) (cur + 64) htemp2 (by omega) ?hshift]
      case hshift =>
        intro j hj
        have h := hstr (j + 1) (by omega)
        have e1 : cur + 64 * (j + 1) + 63 = cur + 64 + 64 * j + 63 := by ring
        have e2 : cur + 64 * (j + 1) + 64 = cur + 64 + 64 * j + 64 := by ring
        rw [e1, e2] at h
        exact h
      have hregion : (buffer.drop cur).take (limit - cur)
          = chunk ++ (buffer.drop (cur + 64)).take (limit - (cur + 64)) := by
        by_cases hend : cur + 64 < limit
        · have hlen2 : len = 64 := by omega
          have e : limit - cur = 64 + (limit - (cur + 64)) := by omega
          rw [e, List.take_add]
          congr 1
          · rw [hchunkdef, hlen2]
          · rw [List.drop_drop]
        · have hz : limit - (cur + 64) = 0 := by omega
          rw [hz, show ((buffer.drop (cur + 64)).take 0) = [] from rfl, List.append_nil,
            hchunkdef]
          congr 1
          omega
      have hsplit : ¬(chunk.getLast? = some 255 ∧
          ((buffer.drop (cur + 64)).take (limit - (cur + 64))).head? = some 0) := by
        by_cases hend : cur + 64 < limit
        · intro hx
          have hlen2 : len = 64 := by omega
          have hL : chunk.getLast? = some (buffer.getD (cur + 63) 0) := by
            rw [getLast?_eq_getD_63 (by rw [hchlen, hlen2])]
            rw [hchunkdef]
            rw [drop_take_getD buffer cur len 63 (by omega)]
          have hH : ((buffer.drop (cur + 64)).take (limit - (cur + 64))).head?
              = some (buffer.getD (cur + 64) 0) :=
            drop_take_head? buffer (cur + 64) _ (by omega) (by omega)
          rw [hL, hH] at hx
          have h1 : buffer.getD (cur + 63) 0 = 255 := Option.some.inj hx.1
          have h2 : buffer.getD (cur + 64) 0 = 0 := Option.some.inj hx.2
          have h := hstr 0 (by omega)
          rw [show cur + 64 * 0 + 63 = cur + 63 from by ring,
            show cur + 64 * 0 + 64 = cur + 64 from by ring] at h
          exact h ⟨h1, h2⟩
        · have hz : limit - (cur + 64) = 0 := by omega
          rw [hz]
          intro hx
          exact Option.noConfusion hx.2
      rw [hregion]
      exact (sanitizeSpec_append chunk _ hsplit).symm
    · have h0 : limit - cur = 0 := by omega
      rw [show imageScanF buffer limit (fuel + 1) temp cur = [] from
        by rw [imageScanF, if_neg hcur]]
      rw [h0]
      rfl

/-- C2 (amended): byte-stuffing removal behaves per-pair as specified —
emit the `0xFF` and skip both bytes of each `FF 00` pair, emit every
other byte — **provided no `FF 00` pair straddles a 64-byte window
boundary** (positions `start + 64k + 63` / `start + 64k + 64` both inside
the scanned region); on a straddling pair the rotated mask compares the
`0xFF` against the window's first byte and the `0x00` is emitted.  The
concrete case `[FF, 00, FF, 00, 02, 04]` lies inside one window and
sanitizes to `[FF, FF, 02, 04]` (see the witness). -/
theorem c2_sanitize_chunked (buffer : List ℕ) (start : ℕ)
    (hstr : ∀ j, start + 64 * j + 64 < buffer.length - 2 →
      ¬(buffer.getD (start + 64 * j + 63) 0 = 255 ∧
        buffer.getD (start + 64 * j + 64) 0 = 0)) :
    parse_image_data buffer start
      = sanitizeSpec ((buffer.drop start).take (buffer.length - 2 - start)) := by
  unfold parse_image_data
  exact imageScanF_eq buffer (buffer.length - 2) (by omega) (buffer.length - 2)
    (List.replicate 64 0) start (by simp) (by omega) hstr

/-- Witness for C2: the spec's concrete case, wrapped in a buffer whose
last two bytes are the EOI marker. -/
theorem c2_sanitize_chunked_witness :
    parse_image_data [255, 0, 255, 0, 2, 4, 255, 217] 0 = [255, 255, 2, 4] := by
  have h := c2_sanitize_chunked [255, 0, 255, 0, 2, 4, 255, 217] 0
    (by
      intro j hj
      simp only [List.length_cons, List.length_nil] at hj
      omega)
  rw [h]
  rfl

/-! ## Marker scanner (`src/src/decoder.rs`, `Decoder::scan_markers`)

Markers are represented by their low byte (`Marker as u8`).
`Marker::all()` enumerates every code from 0x01 (TEM) through 0xFE (COM):
SOF0–SOF15 with JPG and DAC cover 0xC0–0xCF, RST0–7 / SOI / EOI / SOS /
DQT / DNL / DRI / DHP / EXP cover 0xD0–0xDF, APP0–APPF 0xE0–0xEF,
JPEG0–13 and COM 0xF0–0xFE, TEM 0x01 and RES2–RES191 0x02–0xBF.

The scanner walks the buffer in 64-byte windows (`temp_chunk` zeroed
before each copy), skips a window containing no `0xFF`, and matches
`temp_chunk` against the window **rotated left by one lane** — lane 63 is
compared with lane 0 of the same window, not with the next input byte.
Marlen values are read from the full buffer at absolute offsets.
Singleton markers found in a window are removed from the tracked set only
after the whole window is processed. -/

/-- The marker codes of `Marker::all()`: 0x01 through 0xFE. -/
def allMarkers : List ℕ := (List.range 254).map (fun i => i + 1)

/-- `Marker::singleton`: everything except DHT (0xC4), DAC (0xCC),
DQT (0xDB) and EXP (0xDF). -/
def isSingleton (c : ℕ) : Bool := !(c == 0xC4 || c == 0xCC || c == 0xDB || c == 0xDF)

/-- `Marker::is_segment` returning true for the standalone kind:
RST0–RST7 (0xD0–0xD7), SOI (0xD8), EOI (0xD9) and TEM (0x01). -/
def isStandAlone (c : ℕ) : Bool := (0xD0 ≤ c && c ≤ 0xD9) || c == 0x01

/-- `u16::from_be_bytes`. -/
def be16 (hi lo : ℕ) : ℕ := 256 * hi + lo

/-- Lane `i` of the zero-padded window at cursor `cur`. -/
def chunkByte (buffer : List ℕ) (cur len i : ℕ) : ℕ :=
  if i < len then buffer.getD (cur + i) 0 else 0

/-- The lanes where `high_marker_matches & low_marker_matches` holds for
code `c`: the byte is `0xFF` and the rotated chunk (lane 63 wraps to lane
0) carries `c`. -/
def markerPositions (buffer : List ℕ) (cur len c : ℕ) : List ℕ :=
  (List.range 64).filter
    (fun i => chunkByte buffer cur len i == 255 && chunkByte buffer cur len ((i + 1) % 64) == c)

/-- The Marlen recorded for a marker with prefix byte at `pos`:
`(pos + 2 + 2, declared length − 2)` for segment markers,
`(pos + 2, 0)` for standalone markers. -/
def marlenOf (buffer : List ℕ) (pos c : ℕ) : ℕ × ℕ :=
  if isStandAlone c then (pos + 2, 0)
  else (pos + 2 + 2, be16 (buffer.getD (pos + 2) 0) (buffer.getD (pos + 3) 0) - 2)

/-- Does the window contain any `0xFF`?  (`high_marker_matches.any()`.) -/
def chunkHasFF (buffer : List ℕ) (cur len : ℕ) : Bool :=
  (List.range 64).any (fun i => chunkByte buffer cur len i == 255)

/-- All `(marker, marlen)` records produced from one window. -/
def chunkRecords (buffer : List ℕ) (tracked : List ℕ) (cur len : ℕ) : List (ℕ × ℕ × ℕ) :=
  if chunkHasFF buffer cur len then
    tracked.flatMap
      (fun c => (markerPositions buffer cur len c).map (fun i => (c, marlenOf buffer (cur + i) c)))
  else []

/-- The tracked set left after one window: singleton markers found in the
window are removed (after the whole window). -/
def chunkTracked (buffer : List ℕ) (tracked : List ℕ) (cur len : ℕ) : List ℕ :=
  if chunkHasFF buffer cur len then
    tracked.filter (fun c => !(isSingleton c && !(markerPositions buffer cur len c).isEmpty))
  else tracked

/-- The scanner's window loop (fuel only makes the recursion structural;
the cursor advances by 64 per iteration, so `buffer.length` fuel always
suffices). -/
def scanF (buffer : List ℕ) : ℕ → List ℕ → ℕ → List (ℕ × ℕ × ℕ)
  | 0, _, _ => []
  | fuel + 1, tracked, cur =>
    if cur < buffer.length then
      chunkRecords buffer tracked cur (min (cur + 64) buffer.length - cur) ++
        scanF buffer fuel
          (chunkTracked buffer tracked cur (min (cur + 64) buffer.length - cur)) (cur + 64)
    else []

/-- `Decoder::scan_markers`, as the flat list of `(marker, marlen)`
records (the map groups them per marker, in this order). -/
def scan_markers (buffer : List ℕ) : List (ℕ × ℕ × ℕ) :=
  scanF buffer buffer.length allMarkers 0

/-- Iterate the per-window tracked-set update `n` times from `(tracked, cur)`. -/
def trackedIter (buffer : List ℕ) : ℕ → List ℕ → ℕ → List ℕ
  | 0, tracked, _ => tracked
  | n + 1, tracked, cur =>
    trackedIter buffer n
      (chunkTracked buffer tracked cur (min (cur + 64) buffer.length - cur)) (cur + 64)

/-- Tracked set in force when window `n` (cursor `64 * n`) is scanned. -/
def trackedAtChunk (buffer : List ℕ) (n : ℕ) : List ℕ := trackedIter buffer n allMarkers 0

/-- 63 filler bytes, then an SOI marker (`FF D8`) straddling the boundary
between the first and second 64-byte window. -/
def c4straddle : List ℕ := List.replicate 63 0 ++ [255, 216, 0]

set_option maxRecDepth 100000 in
/-- C4 counterexample: `c4straddle` has `0xFF` at position 63 and the SOI
code 0xD8 at position 64, yet the scanner records nothing: the rotated
window compares lane 63 with lane 0, and the second window contains no
`0xFF`. -/
theorem c4_counterexample_boundary_straddle :
    scan_markers c4straddle = [] ∧ c4straddle.getD 63 0 = 255 ∧
      c4straddle.getD 64 0 = 216 ∧ (216 : ℕ) ∈ allMarkers := by
  refine ⟨by decide, by decide, by decide, by decide⟩

theorem getD_ne_zero_lt (buffer : List ℕ) (p v : ℕ) (hv : v ≠ 0)
    (h : buffer.getD p 0 = v) : p < buffer.length := by
  by_contra hp
  rw [List.getD_eq_default buffer 0 (by omega)] at h
  exact hv h.symm

theorem chunkRecords_mem (buffer : List ℕ) (tracked : List ℕ) (cur p c : ℕ)
    (hp1 : cur ≤ p) (hp2 : p < cur + 63)
    (hff : buffer.getD p 0 = 255) (hc : buffer.getD (p + 1) 0 = c)
    (hplen : p + 1 < buffer.length) (hctr : c ∈ tracked) :
    (c, marlenOf buffer p c)
      ∈ chunkRecords buffer tracked cur (min (cur + 64) buffer.length - cur) := by
  have hplt : p < buffer.length := by omega
  set len := min (cur + 64) buffer.length - cur with hlendef
  set i := p - cur with hidef
  have hi63 : i < 63 := by omega
  have hil : i < len := by omega
  have hi1l : i + 1 < len := by omega
  have hcurip : cur + i = p := by omega
  have hcb : chunkByte buffer cur len i = 255 := by
    rw [chunkByte, if_pos hil, hcurip, hff]
  have hmod : (i + 1) % 64 = i + 1 := Nat.mod_eq_of_lt (by omega)
  have hcb1 : chunkByte buffer cur len ((i + 1) % 64) = c := by
    rw [hmod, chunkByte, if_pos hi1l, show cur + (i + 1) = p + 1 from by omega, hc]
  have hgate : chunkHasFF buffer cur len = true := by
    rw [chunkHasFF, List.any_eq_true]
    exact ⟨i, List.mem_range.mpr (by omega), by rw [hcb]; rfl⟩
  rw [chunkRecords, if_pos hgate]
  rw [List.mem_flatMap]
  refine ⟨c, hctr, ?_⟩
  rw [List.mem_map]
  refine ⟨i, ?_, by rw [hcurip]⟩
  rw [markerPositions, List.mem_filter]
  refine ⟨List.mem_range.mpr (by omega), ?_⟩
  rw [hcb, hcb1]
  simp

theorem scanF_mem (buffer : List ℕ) :
    ∀ (n fuel : ℕ) (tracked : List ℕ) (cur : ℕ) (rec : ℕ × ℕ × ℕ),
      cur + 64 * n < buffer.length → n < fuel →
      rec ∈ chunkRecords buffer (trackedIter buffer n tracked cur) (cur + 64 * n)
        (min (cur + 64 * n + 64) buffer.length - (cur + 64 * n)) →
      rec ∈ scanF buffer fuel tracked cur := by
  intro n
  induction n with
  | zero =>
    intro fuel tracked cur rec hlen hfuel hmem
    match fuel, hfuel with
    | fuel + 1, _ =>
      rw [show scanF buffer (fuel + 1) tracked cur
          = chunkRecords buffer tracked cur (min (cur + 64) buffer.length - cur) ++
            scanF buffer fuel
              (chunkTracked buffer tracked cur (min (cur + 64) buffer.length - cur))
              (cur + 64) from by rw [scanF, if_pos (by omega)]]
      refine List.mem_append.mpr (Or.inl ?_)
      simpa using hmem
  | succ n ih =>
    intro fuel tracked cur rec hlen hfuel hmem
    match fuel, hfuel with
    | fuel + 1, hf =>
      rw [show scanF buffer (fuel + 1) tracked cur
          = chunkRecords buffer tracked cur (min (cur + 64) buffer.length - cur) ++
            scanF buffer fuel
              (chunkTracked buffer tracked cur (min (cur + 64) buffer.length - cur))
              (cur + 64) from by rw [scanF, if_pos (by omega)]]
      refine List.mem_append.mpr (Or.inr ?_)
      refine ih fuel (chunkTracked buffer tracked cur (min (cur + 64) buffer.length - cur))
        (cur + 64) rec (by omega) (by omega) ?_
      have e1 : cur + 64 * (n + 1) = cur + 64 + 64 * n := by ring
      rw [e1] at hmem
      exact hmem

/-- C4 (amended): the per-position recording holds for every pair that
does **not** straddle a 64-byte window boundary: whenever byte `p` is
`0xFF`, byte `p + 1` is a marker code `c` still tracked when `p`'s window
is scanned, and `p mod 64 ≠ 63`, the scanner records for `c` the Marlen
`(p + 2 + 2, declared length − 2)` when `c` is a segment marker and
`(p + 2, 0)` when `c` is standalone.  A pair at lane 63 is compared
against lane 0 of its own window instead of the true next byte
(counterexample), so window-size independence fails for straddling
pairs. -/
theorem c4_scan_markers_inwindow (buffer : List ℕ) (p c : ℕ)
    (h63 : p % 64 ≠ 63)
    (hff : buffer.getD p 0 = 255)
    (hc : buffer.getD (p + 1) 0 = c)
    (hplen : p + 1 < buffer.length)
    (htr : c ∈ trackedAtChunk buffer (p / 64)) :
    (c, marlenOf buffer p c) ∈ scan_markers buffer := by
  unfold scan_markers
  unfold trackedAtChunk at htr
  refine scanF_mem buffer (p / 64) buffer.length allMarkers 0 _ (by omega) (by omega) ?_
  have e1 : 0 + 64 * (p / 64) = 64 * (p / 64) := by omega
  rw [e1]
  exact chunkRecords_mem buffer _ (64 * (p / 64)) p c (by omega) (by omega) hff hc hplen htr

/-- Witness for C4: a two-byte buffer holding just `FF D8`; the SOI
standalone marker is recorded with offset 2 and length 0. -/
theorem c4_scan_markers_inwindow_witness :
    ((216 : ℕ), ((2 : ℕ), (0 : ℕ))) ∈ scan_markers [255, 216] :=
  c4_scan_markers_inwindow [255, 216] 0 216 (by decide) (by decide) (by decide)
    (by decide) (by decide)

end Jpeg
